import Mathlib

/-!
Verification of the resource-collection and diff machinery of the
tc-admin repository (files src/ciadmin/resources/resources.py and
src/ciadmin/diff.py).

The Python code is shallowly embedded: resources are (kind, ordered
field list) records, collections are lists of resources plus a list of
managed patterns, errors raised by the Python code become Except
values.  External collaborators that are not part of the repository
(the blessings terminal, the sortedcontainers SortedKeyList, the
MatchList pattern set, difflib and textwrap) are modelled from their
documented behaviour; each such definition carries a comment saying
so.  Terminal formatting is modelled in the plain (non-tty) mode, in
which the blessings Terminal emits no escape codes, so colour
capabilities are either identity or abstract string-to-string
parameters.
-/

namespace CiAdmin

/-! Part: Generic string and list helpers (kernel-evaluable) -/

/-- Whitespace characters stripped by the Python str.rstrip / str.strip. -/
def isWs (c : Char) : Bool :=
  c = ' ' || c = '\t' || c = '\n' || c = '\r' || c = '\x0b' || c = '\x0c'

/-- Python str.rstrip: drop trailing whitespace. -/
def rstrip (s : String) : String :=
  String.mk (s.data.reverse.dropWhile isWs).reverse

/-- join a list of strings with a separator, as Python sep.join(l). -/
def joinWith (sep : String) : List String → String
  | [] => ""
  | [x] => x
  | x :: y :: rest => x ++ sep ++ joinWith sep (y :: rest)

/-- Python s.split of a string at newline characters (never empty). -/
def splitLinesAux : List Char → List Char → List String
  | [], acc => [String.mk acc.reverse]
  | c :: rest, acc =>
    if c = '\n' then String.mk acc.reverse :: splitLinesAux rest []
    else splitLinesAux rest (c :: acc)

/-- Python s.split at newline characters: split("") is [""]. -/
def splitLines (s : String) : List String :=
  splitLinesAux s.data []

/-- Lexicographic comparison of character lists, the order Python uses
to compare strings (by code point). -/
def charListLe : List Char → List Char → Bool
  | [], _ => true
  | _ :: _, [] => false
  | c :: cs, d :: ds => if c < d then true else if d < c then false else charListLe cs ds

/-- Executable lexicographic string comparison. -/
def strLe (a b : String) : Bool :=
  charListLe a.data b.data

theorem charListLe_iff : ∀ cs ds : List Char,
    charListLe cs ds = true ↔ ¬ List.Lex (fun x y : Char => x < y) ds cs
  | [], ds => by
    constructor
    · intro _ h
      cases h
    · intro _
      rfl
  | c :: cs, [] => by
    constructor
    · intro h
      exact absurd h Bool.false_ne_true
    · intro h
      exact absurd List.Lex.nil h
  | c :: cs, d :: ds => by
    have heq : charListLe (c :: cs) (d :: ds)
        = (if c < d then true else if d < c then false else charListLe cs ds) := rfl
    rw [heq]
    by_cases h1 : c < d
    · rw [if_pos h1]
      constructor
      · intro _ h
        cases h with
        | cons htl => exact lt_irrefl c h1
        | rel hdc => exact lt_asymm h1 hdc
      · intro _
        rfl
    · rw [if_neg h1]
      by_cases h2 : d < c
      · rw [if_pos h2]
        constructor
        · intro h
          exact absurd h Bool.false_ne_true
        · intro h
          exact absurd (List.Lex.rel h2) h
      · rw [if_neg h2]
        have hcd : c = d := le_antisymm (le_of_not_lt h2) (le_of_not_lt h1)
        subst hcd
        rw [charListLe_iff cs ds]
        constructor
        · intro h hlt
          cases hlt with
          | cons htl => exact h htl
          | rel hcc => exact lt_irrefl c hcc
        · intro h hlt
          exact h (List.Lex.cons hlt)

/-- strLe is the lexicographic order of strings. -/
theorem strLe_iff (a b : String) : strLe a b = true ↔ a ≤ b := by
  rw [strLe, charListLe_iff a.data b.data]
  constructor
  · intro h hba
    exact h (String.lt_iff_toList_lt.1 hba)
  · intro h hlex
    exact h (String.lt_iff_toList_lt.2 hlex)

/-- Insert an element into a list sorted by key, after any elements with
an equal key.  This is the behaviour of sortedcontainers
SortedKeyList.add (modelled from its documentation: insertion keeps the
list sorted by the key function). -/
def insertSortedBy (key : α → String) (a : α) : List α → List α
  | [] => [a]
  | b :: l => if strLe (key b) (key a) then b :: insertSortedBy key a l else a :: b :: l

/-- Stable insertion sort by a string key: the model of both Python
sorted() and of the sortedcontainers SortedKeyList constructor, which
sort their input. -/
def sortBy (key : α → String) (l : List α) : List α :=
  l.foldl (fun acc x => insertSortedBy key x acc) []

/-- Python sorted() on a list of strings. -/
def sortStr (l : List String) : List String :=
  sortBy (fun s => s) l

/-- Deduplicate a list of strings (the model of Python set(); the order
of the result is irrelevant because every use sorts it afterwards).
Keeps the last occurrence of each element. -/
def dedupStr : List String → List String
  | [] => []
  | a :: l => if l.contains a then dedupStr l else a :: dedupStr l

/-- Python sorted(set(l)) for a list of strings. -/
def sortedUnique (l : List String) : List String :=
  sortStr (dedupStr l)

/-- First index of an element in a list, as Python list.index (none
models the ValueError raised when the element is absent). -/
def indexOfFrom (x : String) : List String → Nat → Option Nat
  | [], _ => none
  | a :: rest, k => if a = x then some k else indexOfFrom x rest (k + 1)

/-! Part: Resource (resources.py, class Resource)

A resource is a kind tag (the Python class name) together with the
ordered list of its attrs fields as (name, value) pairs; field values
are modelled as strings.  The first field is the primary key. -/

structure Resource where
  kind : String
  fields : List (String × String)
deriving DecidableEq, Repr

/-- Resource.id: the id of this instance, including the kind name
(source: return kind plus an equals sign plus the value of the first
declared field).  An attrs class always has at least one field; the
default for the impossible empty-fields case is irrelevant. -/
def Resource.id (r : Resource) : String :=
  r.kind ++ "=" ++ ((r.fields.head?.getD ("", "")).2)

/-- The JSON-able form of a resource produced by Resource.to_json: all
attrs fields plus the kind tag. -/
structure ResourceJson where
  fields : List (String × String)
  kind : String
deriving DecidableEq, Repr

/-- Resource.to_json: attr.asdict(self) plus the kind entry. -/
def Resource.to_json (r : Resource) : ResourceJson :=
  ⟨r.fields, r.kind⟩

/-- Resource.from_json: pop the kind, look the class up in the registry
of subclasses (modelled as the list of registered kind names) and build
it from the remaining fields; an unknown kind raises KeyError. -/
def Resource.from_json (kinds : List String) (j : ResourceJson) : Except String Resource :=
  if j.kind ∈ kinds then .ok ⟨j.kind, j.fields⟩
  else .error ("KeyError: " ++ j.kind)

/-- Is the line blank up to whitespace (the default predicate of
textwrap.indent, which leaves whitespace-only lines unindented)? -/
def isBlankLine (s : String) : Bool :=
  s.data.all isWs

/-- Modelled from the documented behaviour of textwrap.indent: prepend
the prefix to every line that contains a non-whitespace character. -/
def indentBy (pre : String) (s : String) : String :=
  joinWith ("\n") ((splitLines s).map (fun l => if isBlankLine l then l else pre ++ l))

/-- Resource.__str__ in plain (non-tty) terminal mode: the id line
followed by one entry per field; a field whose formatted value contains
a newline becomes a label line plus the value indented by four spaces.
The default formatter str is the identity on our string values. -/
def Resource.render (r : Resource) : String :=
  joinWith ("\n") ((r.id ++ ":") ::
    r.fields.map (fun f =>
      let label := "  " ++ f.1 ++ ":"
      if f.2.data.contains '\n' then label ++ "\n" ++ indentBy ("    ") f.2
      else label ++ " " ++ f.2))

/-! Part: Resources (resources.py, class Resources)

The managed MatchList is repository code that is not under src/;
modelled from the spec: a ManagedPatternSet is a list of pattern
strings with a matches(id) predicate that is true iff some pattern in
the list matches the id.  The per-pattern match relation is an
arbitrary parameter mp : pattern → id → Bool throughout. -/

structure Resources where
  resources : List Resource
  managed : List String
deriving DecidableEq, Repr

/-- Resources.is_managed: true if some managed pattern matches the id
(MatchList.matches modelled from the spec, with the single-pattern
match relation mp abstract). -/
def Resources.is_managed (mp : String → String → Bool) (c : Resources) (i : String) : Bool :=
  c.managed.any (fun p => mp p i)

/-- The duplicate scan of Resources._verify: zip the id sequence with
itself shifted by one (the source pairs chain([None], ids) with ids)
and collect the first component of every equal adjacent pair. -/
def adjacentDupes : List String → List String
  | a :: b :: rest => (if a = b then [a] else []) ++ adjacentDupes (b :: rest)
  | _ => []

/-- Resources._verify: first search for duplicates (taking advantage of
sorting) and raise listing the sorted unique duplicate ids; then
collect the sorted unmanaged ids and raise listing them. -/
def Resources.verify (mp : String → String → Bool) (c : Resources) : Except String Unit :=
  let ids := c.resources.map Resource.id
  let dupes := adjacentDupes ids
  if dupes.isEmpty then
    let unmanaged := sortStr (ids.filter (fun i => !(c.is_managed mp i)))
    if unmanaged.isEmpty then .ok ()
    else .error ("unmanaged resources: " ++ joinWith (", ") unmanaged)
  else .error ("duplicate resources: " ++ joinWith (", ") (sortedUnique dupes))

/-- Construction of a Resources collection: the attrs converter wraps
the given iterable in a SortedKeyList keyed by id (modelled as a stable
sort by id), then __attrs_post_init__ runs _verify, raising on
violation. -/
def mkResources (mp : String → String → Bool) (resources : List Resource)
    (managed : List String) : Except String Resources :=
  let c : Resources := ⟨sortBy Resource.id resources, managed⟩
  match c.verify mp with
  | .ok _ => .ok c
  | .error e => .error e

/-- Resources.add: raise for an unmanaged resource id, otherwise insert
into the sorted list (SortedKeyList.add keeps the list sorted by id).
The Python method mutates in place; the embedding returns the new
collection. -/
def Resources.add (mp : String → String → Bool) (c : Resources) (r : Resource) :
    Except String Resources :=
  if c.is_managed mp r.id then
    .ok ⟨insertSortedBy Resource.id r c.resources, c.managed⟩
  else .error ("unmanaged resource: " ++ r.id)

/-- Resources.manage: append a pattern to the managed list. -/
def Resources.manage (c : Resources) (p : String) : Resources :=
  ⟨c.resources, c.managed ++ [p]⟩

/-- The JSON-able form of a collection produced by Resources.to_json. -/
structure ResourcesJson where
  resources : List ResourceJson
  managed : List String
deriving DecidableEq, Repr

/-- Resources.to_json: verify, then emit the resources in iteration
order and the managed patterns verbatim. -/
def Resources.to_json (mp : String → String → Bool) (c : Resources) :
    Except String ResourcesJson :=
  match c.verify mp with
  | .ok _ => .ok ⟨c.resources.map Resource.to_json, c.managed⟩
  | .error e => .error e

/-- Resources.from_json: rebuild each resource via Resource.from_json
and construct a new collection (which re-sorts and re-verifies). -/
def Resources.from_json (kinds : List String) (mp : String → String → Bool)
    (j : ResourcesJson) : Except String Resources :=
  match j.resources.mapM (Resource.from_json kinds) with
  | .ok rs => mkResources mp rs j.managed
  | .error e => .error e

/-- Resources.__str__ in plain terminal mode: the managed block, a
blank line, the resources anchor line, and every resource rendered and
indented two spaces, separated by blank lines; verifies first. -/
def Resources.render (mp : String → String → Bool) (c : Resources) : Except String String :=
  match c.verify mp with
  | .ok _ => .ok ("managed:\n"
      ++ joinWith ("\n") (c.managed.map (fun m => "  - " ++ m))
      ++ "\n\nresources:\n"
      ++ indentBy ("  ") (joinWith ("\n\n") (c.resources.map Resource.render)))
  | .error e => .error e

/-! Part: Identity diff (diff.py, id_diff)

The function builds two dicts keyed by resource id (a Python dict
comprehension keeps the last resource for a repeated id), iterates the
sorted union of the key sets and classifies each id.  The embedding
factors the loop body into a classification (idDiffEntry) and a
rendering step (renderEntry); composing them is id_diff.  The three
colour capabilities of the blessings terminal are abstract
string-to-string parameters. -/

/-- One emitted line of the identity diff, before colouring. -/
inductive DiffEntry where
  | added (i : String)
  | removed (i : String)
  | changed (i : String) (fields : List String)
deriving DecidableEq, Repr

/-- The dict comprehension keyed by id: looking an id up yields the
last resource of the list with that id. -/
def lookupLast (rs : List Resource) (i : String) : Option Resource :=
  rs.reverse.find? (fun r => r.id == i)

/-- The changed-field computation of id_diff for two resources of the
same kind: iterate the field names of the current resource c (the
iteration order of attr.asdict) and keep, sorted, those whose value
differs from the generated resource g.  Dict lookups are modelled by
association-list lookup; attrs field names are unique, and for two
resources of the same Python class both dicts have the same keys. -/
def changedFields (c g : Resource) : List String :=
  sortStr ((c.fields.map Prod.fst).filter
    (fun k => c.fields.lookup k ≠ g.fields.lookup k))

/-- The body of the id_diff loop for one id of the sorted union. -/
def idDiffEntry (generated current : List Resource) (i : String) : Option DiffEntry :=
  match lookupLast generated i with
  | some g =>
    match lookupLast current i with
    | some c =>
      if c = g then none
      else if c.kind = g.kind then some (.changed i (changedFields c g))
      else some (.changed i ["kind"])
    | none => some (.added i)
  | none => some (.removed i)

/-- The ids of a list of resources. -/
def idsOf (rs : List Resource) : List String :=
  rs.map Resource.id

/-- The sorted union of the two id sets iterated by id_diff. -/
def allResourceIds (generated current : List Resource) : List String :=
  sortedUnique (idsOf generated ++ idsOf current)

/-- The entries produced by the id_diff loop, in iteration order. -/
def idDiffEntries (generated current : List Resource) : List DiffEntry :=
  (allResourceIds generated current).filterMap (idDiffEntry generated current)

/-- Rendering of one entry, with the three colour capabilities of the
terminal abstract. -/
def renderEntry (green red yellow : String → String) : DiffEntry → String
  | .added i => green ("+ " ++ i)
  | .removed i => red ("- " ++ i)
  | .changed i fs => yellow ("! " ++ i ++ " (changed: " ++ joinWith (", ") fs ++ ")")

/-- id_diff: the newline-joined coloured entries. -/
def id_diff (green red yellow : String → String) (generated current : List Resource) : String :=
  joinWith ("\n") ((idDiffEntries generated current).map (renderEntry green red yellow))

/-- The entry for one id as the spec describes it, written from the
spec wording for comparison with idDiffEntry: an id only in generated
is an addition, an id only in current is a removal, an id in both with
structurally equal resources produces nothing, and an id in both with
differing resources produces the changed entry with the sorted list of
differing field names.  Occurrences are found by membership and find?
rather than by last-occurrence dict lookup. -/
def specIdDiffEntry (generated current : List Resource) (i : String) : Option DiffEntry :=
  match generated.find? (fun r => r.id == i), current.find? (fun r => r.id == i) with
  | some _, none => some (.added i)
  | none, some _ => some (.removed i)
  | some g, some c => if c = g then none else some (.changed i (changedFields c g))
  | none, none => none

/-- The full identity diff as the spec describes it: iterate the sorted
union of both collections' ids and emit the per-id entries. -/
def specIdDiffEntries (generated current : List Resource) : List DiffEntry :=
  (allResourceIds generated current).filterMap (specIdDiffEntry generated current)

/-- Swapping the two arguments of the identity diff turns additions
into removals and vice versa and keeps changed entries. -/
def swapEntry : DiffEntry → DiffEntry
  | .added i => .removed i
  | .removed i => .added i
  | .changed i fs => .changed i fs

/-! Part: Modelled unified diff (difflib)

difflib is the Python standard library, an external collaborator of
the repository.  Modelled from the spec: the textual diff computes a
line-based unified diff between the current and generated renderings
with a context window of 8 lines on either side of each change hunk,
emitting hunk-range marker lines of the form @@ -line,len +line,len @@
followed by context lines prefixed by a space, removed lines prefixed
by a minus sign and added lines prefixed by a plus sign; two file
header lines precede the first hunk, and equal inputs produce no
output at all.  Matching lines are found by a longest common
subsequence (fuel makes the recursion structural; the wrapper supplies
enough fuel for it never to run out). -/

/-- Matched index pairs of a longest common subsequence of the two
line lists, offset by the given indices. -/
def lcsPairs : Nat → List String → List String → Nat → Nat → List (Nat × Nat)
  | 0, _, _, _, _ => []
  | _, [], _, _, _ => []
  | _, _ :: _, [], _, _ => []
  | fuel + 1, a :: as, b :: bs, i, j =>
    if a = b then (i, j) :: lcsPairs fuel as bs (i + 1) (j + 1)
    else
      let keepA := lcsPairs fuel (a :: as) bs i (j + 1)
      let keepB := lcsPairs fuel as (b :: bs) (i + 1) j
      if keepB.length > keepA.length then keepB else keepA

/-- Coalesce consecutive matched pairs into blocks (i, j, size). -/
def coalesceFrom (i j size : Nat) : List (Nat × Nat) → List (Nat × Nat × Nat)
  | [] => [(i, j, size)]
  | (a, b) :: rest =>
    if a = i + size && b = j + size then coalesceFrom i j (size + 1) rest
    else (i, j, size) :: coalesceFrom a b 1 rest

/-- The matching blocks of the two line lists, terminated by the
sentinel zero-size block, as difflib get_matching_blocks. -/
def matchingBlocks (la lb : Nat) (pairs : List (Nat × Nat)) : List (Nat × Nat × Nat) :=
  (match pairs with
   | [] => []
   | (a, b) :: rest => coalesceFrom a b 1 rest) ++ [(la, lb, 0)]

/-- The tag of a difflib opcode. -/
inductive OpTag where
  | replace
  | delete
  | insert
  | equal
deriving DecidableEq, Repr

/-- A difflib opcode (tag, i1, i2, j1, j2). -/
structure Opcode where
  tag : OpTag
  i1 : Nat
  i2 : Nat
  j1 : Nat
  j2 : Nat
deriving DecidableEq, Repr

/-- difflib get_opcodes: turn the matching blocks into an alternation
of replace/delete/insert and equal opcodes. -/
def opcodesFrom (i j : Nat) : List (Nat × Nat × Nat) → List Opcode
  | [] => []
  | (ai, bj, size) :: rest =>
    let pre : List Opcode :=
      if i < ai && j < bj then [⟨.replace, i, ai, j, bj⟩]
      else if i < ai then [⟨.delete, i, ai, j, bj⟩]
      else if j < bj then [⟨.insert, i, ai, j, bj⟩]
      else []
    let eqPart : List Opcode :=
      if size > 0 then [⟨.equal, ai, ai + size, bj, bj + size⟩] else []
    pre ++ eqPart ++ opcodesFrom (ai + size) (bj + size) rest

/-- Clamp a leading equal opcode to n lines of context. -/
def clampHead (n : Nat) : List Opcode → List Opcode
  | [] => []
  | c :: rest =>
    if c.tag = .equal then
      ⟨.equal, max c.i1 (c.i2 - n), c.i2, max c.j1 (c.j2 - n), c.j2⟩ :: rest
    else c :: rest

/-- Clamp a trailing equal opcode to n lines of context. -/
def clampTail (n : Nat) : List Opcode → List Opcode
  | [] => []
  | [c] =>
    if c.tag = .equal then
      [⟨.equal, c.i1, min c.i2 (c.i1 + n), c.j1, min c.j2 (c.j1 + n)⟩]
    else [c]
  | c :: d :: rest => c :: clampTail n (d :: rest)

/-- The grouping loop of difflib get_grouped_opcodes: split the opcode
list at equal runs longer than twice the context width, keeping n
lines of context on each side; a final group consisting of one equal
opcode is discarded. -/
def groupLoop (n : Nat) (group : List Opcode) : List Opcode → List (List Opcode)
  | [] =>
    match group with
    | [] => []
    | [c] => if c.tag = .equal then [] else [[c]]
    | _ => [group]
  | c :: rest =>
    if c.tag = .equal && c.i2 - c.i1 > n + n then
      (group ++ [⟨.equal, c.i1, min c.i2 (c.i1 + n), c.j1, min c.j2 (c.j1 + n)⟩]) ::
        groupLoop n [⟨.equal, max c.i1 (c.i2 - n), c.i2, max c.j1 (c.j2 - n), c.j2⟩] rest
    else groupLoop n (group ++ [c])  rest

/-- difflib get_grouped_opcodes. -/
def groupedOpcodes (n : Nat) (codes0 : List Opcode) : List (List Opcode) :=
  let codes := if codes0.isEmpty then [⟨.equal, 0, 1, 0, 1⟩] else codes0
  groupLoop n [] (clampTail n (clampHead n codes))

/-- difflib _format_range_unified: one-based start and length, with the
length omitted when it is one and the start decremented when it is
zero. -/
def formatRange (start stop : Nat) : String :=
  let beginning := start + 1
  let length := stop - start
  if length = 1 then toString beginning
  else if length = 0 then toString (beginning - 1) ++ "," ++ toString length
  else toString beginning ++ "," ++ toString length

/-- The body lines contributed by one opcode of a group. -/
def opcodeLines (a b : List String) (c : Opcode) : List String :=
  match c.tag with
  | .equal => ((a.drop c.i1).take (c.i2 - c.i1)).map (fun l => " " ++ l)
  | .delete => ((a.drop c.i1).take (c.i2 - c.i1)).map (fun l => "-" ++ l)
  | .insert => ((b.drop c.j1).take (c.j2 - c.j1)).map (fun l => "+" ++ l)
  | .replace => ((a.drop c.i1).take (c.i2 - c.i1)).map (fun l => "-" ++ l)
      ++ ((b.drop c.j1).take (c.j2 - c.j1)).map (fun l => "+" ++ l)

/-- The lines of one hunk: the range marker followed by the bodies. -/
def groupLines (a b : List String) (g : List Opcode) : List String :=
  match g.head?, g.getLast? with
  | some f, some l =>
    ("@@ -" ++ formatRange f.i1 l.i2 ++ " +" ++ formatRange f.j1 l.j2 ++ " @@") ::
      (g.map (opcodeLines a b)).flatten
  | _, _ => []

/-- difflib unified_diff with lineterm set to the empty string: the two
file header lines (emitted only when at least one hunk exists) followed
by the hunks. -/
def unifiedDiff (a b : List String) (fromfile tofile : String) (n : Nat) : List String :=
  let pairs := lcsPairs (a.length + b.length) a b 0 0
  let codes := opcodesFrom 0 0 (matchingBlocks a.length b.length pairs)
  let groups := groupedOpcodes n codes
  if groups.isEmpty then []
  else ("--- " ++ fromfile) :: ("+++ " ++ tofile) :: (groups.map (groupLines a b)).flatten

/-! Part: Textual diff (diff.py, textual_diff) -/

/-- The label regular expression of textual_diff, anchored at the line
start: exactly two leading spaces followed by a non-space character;
the captured group is everything from that character to the end of the
line. -/
def labelMatch (s : String) : Option String :=
  match s.data with
  | ' ' :: ' ' :: c :: rest => if c = ' ' then none else some (String.mk (c :: rest))
  | _ => none

/-- Numeric value of a list of decimal digit characters. -/
def digitsToNat (l : List Char) : Nat :=
  l.foldl (fun n c => n * 10 + (c.toNat - '0'.toNat)) 0

/-- Split a leading run of decimal digits off a character list. -/
def digitSpan : List Char → List Char × List Char
  | [] => ([], [])
  | c :: rest =>
    if c.isDigit then
      let p := digitSpan rest
      (c :: p.1, p.2)
    else ([], c :: rest)

/-- The context regular expression of textual_diff applied to a range
line: an at-at, space, minus prefix followed by a digit run and a
comma; the source converts the captured digits with int, which would
raise on an empty capture, but unified_diff always supplies at least
one digit, so the empty capture is folded into the no-match case. -/
def parseHunkSource (s : String) : Option Nat :=
  match s.data with
  | '@' :: '@' :: ' ' :: '-' :: rest =>
    let p := digitSpan rest
    match p.2 with
    | ',' :: _ => if p.1.isEmpty then none else some (digitsToNat p.1)
    | _ => none
  | _ => none

/-- The while loop of contextualize: repeatedly decrement the line
number while it exceeds resources_start, returning the first label
match among the visited lines of the current rendering (the loop
checks indices line-1 down to resources_start inclusive).  Out-of-range
indexing cannot occur for line numbers taken from a real hunk; the
default empty line keeps the function total. -/
def scanBack (left : List String) (resourcesStart : Nat) : Nat → String
  | 0 => ""
  | line + 1 =>
    if line + 1 > resourcesStart then
      match labelMatch (left.getD line ("")) with
      | some lbl => lbl
      | none => scanBack left resourcesStart line
    else ""

/-- contextualize: add context information to a range (@@ .. @@) line
by scanning backward from its numbered source line. -/
def contextualize (left : List String) (resourcesStart : Nat) (rangeInfo : String) : String :=
  match parseHunkSource rangeInfo with
  | none => ""
  | some line => scanBack left resourcesStart line

/-- The colour dispatch of textual_diff on the first character of a
line, in plain terminal mode (colours and strip_ansi are the identity),
followed by the rstrip the source applies to every line; a first
character outside the dispatch table would raise KeyError, modelled by
none.  A range line is additionally annotated with its context label. -/
def colorLine (left : List String) (resourcesStart : Nat) (s : String) : Option String :=
  match s.data with
  | '-' :: _ => some (rstrip s)
  | '+' :: _ => some (rstrip s)
  | '@' :: _ => some (rstrip (s ++ " " ++ contextualize left resourcesStart s))
  | ' ' :: _ => some (rstrip s)
  | _ => none

/-- textual_diff: render both collections, locate the resources anchor
line in the current rendering, compute the unified diff with 8 context
lines, replace empty diff lines by a single space, and colour and
annotate every line. -/
def textual_diff (mp : String → String → Bool) (generated current : Resources) :
    Except String String :=
  match current.render mp with
  | .error e => .error e
  | .ok leftS =>
    match generated.render mp with
    | .error e => .error e
    | .ok rightS =>
      let left := splitLines leftS
      let right := splitLines rightS
      match indexOfFrom ("resources:") left 0 with
      | none => .error ("ValueError: resources is not in list")
      | some resourcesStart =>
        let lines := unifiedDiff left right ("current") ("generated") 8
        match (lines.map (fun l => if l = "" then " " else l)).mapM
            (colorLine left resourcesStart) with
        | none => .error ("KeyError")
        | some colored => .ok (joinWith ("\n") colored)

/-- The context label as the spec describes it, written from the spec
wording for comparison with contextualize: starting from the numbered
source line, scan backward line by line until reaching the resources
anchor line, and take the first line that has exactly two leading
spaces followed by a non-space; if no such line occurs before the
anchor the label is empty.  The visited zero-based indices are line-1
down to resourcesStart+1. -/
def specContextLabel (left : List String) (resourcesStart : Nat) (line : Nat) : String :=
  (((List.range (line - (resourcesStart + 1))).map (fun k => line - 1 - k)).findSome?
    (fun idx => labelMatch (left.getD idx ("")))).getD ("")

/-! Part: reachable collections

A collection reachable through the public lifecycle of the class: built
by the constructor, then mutated only through add. -/

inductive Reachable (mp : String → String → Bool) : Resources → Prop
  | mk {rs : List Resource} {m : List String} {c : Resources} :
      mkResources mp rs m = .ok c → Reachable mp c
  | add {c c2 : Resources} {r : Resource} :
      Reachable mp c → c.add mp r = .ok c2 → Reachable mp c2

/-! Part: lemmas about sorted insertion and insertion sort -/

section SortLemmas

variable {α : Type} (key : α → String)

theorem insertSortedBy_perm (a : α) (l : List α) :
    List.Perm (insertSortedBy key a l) (a :: l) := by
  induction l with
  | nil => simp [insertSortedBy]
  | cons b t ih =>
    by_cases h : key b ≤ key a
    · rw [insertSortedBy, if_pos ((strLe_iff _ _).2 h)]
      exact (ih.cons b).trans (List.Perm.swap a b t)
    · rw [insertSortedBy, if_neg (fun hb => h ((strLe_iff _ _).1 hb))]

theorem mem_insertSortedBy (a x : α) (l : List α) :
    x ∈ insertSortedBy key a l ↔ x = a ∨ x ∈ l := by
  have h : x ∈ insertSortedBy key a l ↔ x ∈ a :: l :=
    (insertSortedBy_perm key a l).mem_iff
  simpa using h

theorem pairwise_insertSortedBy (a : α) {l : List α}
    (h : l.Pairwise (fun x y => key x ≤ key y)) :
    (insertSortedBy key a l).Pairwise (fun x y => key x ≤ key y) := by
  induction l with
  | nil => simp [insertSortedBy]
  | cons b t ih =>
    rw [List.pairwise_cons] at h
    by_cases hba : key b ≤ key a
    · rw [insertSortedBy, if_pos ((strLe_iff _ _).2 hba), List.pairwise_cons]
      refine ⟨?_, ih h.2⟩
      intro x hx
      rcases (mem_insertSortedBy key a x t).1 hx with rfl | hxt
      · exact hba
      · exact h.1 x hxt
    · rw [insertSortedBy, if_neg (fun hb => hba ((strLe_iff _ _).1 hb)), List.pairwise_cons]
      refine ⟨?_, List.pairwise_cons.2 h⟩
      intro x hx
      rcases List.mem_cons.1 hx with rfl | hxt
      · exact le_of_not_le hba
      · exact le_trans (le_of_not_le hba) (h.1 x hxt)

theorem insertSortedBy_of_all_le (a : α) {l : List α}
    (h : ∀ b ∈ l, key b ≤ key a) : insertSortedBy key a l = l ++ [a] := by
  induction l with
  | nil => simp [insertSortedBy]
  | cons b t ih =>
    rw [insertSortedBy, if_pos ((strLe_iff _ _).2 (h b (by simp)))]
    simp [ih (fun x hx => h x (by simp [hx]))]

theorem foldl_insertSortedBy_perm (l : List α) : ∀ acc : List α,
    List.Perm (l.foldl (fun acc x => insertSortedBy key x acc) acc) (acc ++ l) := by
  induction l with
  | nil => intro acc; simp
  | cons x t ih =>
    intro acc
    have h1 : List.Perm (t.foldl (fun acc x => insertSortedBy key x acc)
        (insertSortedBy key x acc)) ((insertSortedBy key x acc) ++ t) := ih _
    have h2 : List.Perm ((insertSortedBy key x acc) ++ t) ((x :: acc) ++ t) :=
      (insertSortedBy_perm key x acc).append_right t
    have h3 : List.Perm ((x :: acc) ++ t) (acc ++ x :: t) := by
      have hp : List.Perm (acc ++ x :: t) (x :: (acc ++ t)) := List.perm_middle
      simpa using hp.symm
    exact (h1.trans h2).trans h3

theorem sortBy_perm (l : List α) : List.Perm (sortBy key l) l := by
  simpa using foldl_insertSortedBy_perm key l []

theorem mem_sortBy (x : α) (l : List α) : x ∈ sortBy key l ↔ x ∈ l :=
  (sortBy_perm key l).mem_iff

theorem foldl_insertSortedBy_pairwise (l : List α) :
    ∀ acc : List α, acc.Pairwise (fun x y => key x ≤ key y) →
    (l.foldl (fun acc x => insertSortedBy key x acc) acc).Pairwise
      (fun x y => key x ≤ key y) := by
  induction l with
  | nil => intro acc h; simpa using h
  | cons x t ih =>
    intro acc h
    exact ih (insertSortedBy key x acc) (pairwise_insertSortedBy key x h)

theorem sortBy_pairwise (l : List α) :
    (sortBy key l).Pairwise (fun x y => key x ≤ key y) :=
  foldl_insertSortedBy_pairwise key l [] (by simp)

theorem foldl_insertSortedBy_of_pairwise (l : List α) :
    ∀ acc : List α, (acc ++ l).Pairwise (fun x y => key x ≤ key y) →
    l.foldl (fun acc x => insertSortedBy key x acc) acc = acc ++ l := by
  induction l with
  | nil => intro acc _; simp
  | cons x t ih =>
    intro acc h
    have hx : ∀ b ∈ acc, key b ≤ key x := by
      intro b hb
      exact (List.pairwise_append.1 h).2.2 b hb x (by simp)
    have step : insertSortedBy key x acc = acc ++ [x] :=
      insertSortedBy_of_all_le key x hx
    have tail : t.foldl (fun acc x => insertSortedBy key x acc) (acc ++ [x])
        = (acc ++ [x]) ++ t := by
      apply ih
      simpa using h
    calc (x :: t).foldl (fun acc x => insertSortedBy key x acc) acc
        = t.foldl (fun acc x => insertSortedBy key x acc) (insertSortedBy key x acc) := rfl
      _ = t.foldl (fun acc x => insertSortedBy key x acc) (acc ++ [x]) := by rw [step]
      _ = (acc ++ [x]) ++ t := tail
      _ = acc ++ x :: t := by simp

theorem sortBy_eq_self {l : List α}
    (h : l.Pairwise (fun x y => key x ≤ key y)) : sortBy key l = l := by
  simpa using foldl_insertSortedBy_of_pairwise key l [] (by simpa using h)

end SortLemmas

/-! Part: lemmas about the string-level helpers -/

theorem sortStr_pairwise (l : List String) :
    (sortStr l).Pairwise (fun x y : String => x ≤ y) :=
  sortBy_pairwise (fun s => s) l

theorem sortStr_perm (l : List String) : List.Perm (sortStr l) l :=
  sortBy_perm (fun s => s) l

theorem mem_sortStr (x : String) (l : List String) : x ∈ sortStr l ↔ x ∈ l :=
  (sortStr_perm l).mem_iff

theorem mem_dedupStr (x : String) (l : List String) : x ∈ dedupStr l ↔ x ∈ l := by
  induction l with
  | nil => simp [dedupStr]
  | cons a t ih =>
    by_cases h : t.contains a
    · rw [dedupStr, if_pos h]
      have ha : a ∈ t := by simpa using h
      simp only [List.mem_cons, ih]
      constructor
      · intro hx; exact Or.inr hx
      · rintro (rfl | hx)
        · exact ha
        · exact hx
    · rw [dedupStr, if_neg h]
      simp [ih]

theorem nodup_dedupStr (l : List String) : (dedupStr l).Nodup := by
  induction l with
  | nil => simp [dedupStr]
  | cons a t ih =>
    by_cases h : t.contains a
    · rw [dedupStr, if_pos h]; exact ih
    · rw [dedupStr, if_neg h]
      refine List.Nodup.cons ?_ ih
      intro hmem
      rw [mem_dedupStr] at hmem
      have : a ∉ t := by simpa using h
      exact this hmem

theorem mem_sortedUnique (x : String) (l : List String) :
    x ∈ sortedUnique l ↔ x ∈ l := by
  rw [sortedUnique, mem_sortStr, mem_dedupStr]

theorem nodup_sortedUnique (l : List String) : (sortedUnique l).Nodup :=
  (sortStr_perm (dedupStr l)).nodup_iff.2 (nodup_dedupStr l)

theorem pairwise_sortedUnique (l : List String) :
    (sortedUnique l).Pairwise (fun x y : String => x ≤ y) :=
  sortStr_pairwise (dedupStr l)

/-- Two weakly sorted lists of strings without duplicates and with the
same members are equal. -/
theorem sorted_nodup_ext {l₁ l₂ : List String}
    (s₁ : l₁.Pairwise (fun x y : String => x ≤ y)) (n₁ : l₁.Nodup)
    (s₂ : l₂.Pairwise (fun x y : String => x ≤ y)) (n₂ : l₂.Nodup)
    (h : ∀ x, x ∈ l₁ ↔ x ∈ l₂) : l₁ = l₂ := by
  have hperm : List.Perm l₁ l₂ := (List.perm_ext_iff_of_nodup n₁ n₂).2 h
  have hlt₁ : l₁.Pairwise (fun x y : String => x < y) :=
    (s₁.and n₁).imp (fun h => lt_of_le_of_ne h.1 h.2)
  have hlt₂ : l₂.Pairwise (fun x y : String => x < y) :=
    (s₂.and n₂).imp (fun h => lt_of_le_of_ne h.1 h.2)
  haveI : IsAntisymm String (fun x y : String => x < y) :=
    ⟨fun a b h1 h2 => absurd h2 (not_lt_of_gt h1)⟩
  exact List.eq_of_perm_of_sorted hperm hlt₁ hlt₂

/-! Part: lemmas about the adjacent-duplicate scan -/

theorem adjacentDupes_singleton (x : String) : adjacentDupes [x] = [] := rfl

theorem adjacentDupes_cons2 (x y : String) (t : List String) :
    adjacentDupes (x :: y :: t) = (if x = y then [x] else []) ++ adjacentDupes (y :: t) := rfl

theorem mem_adjacentDupes_of_sorted {l : List String}
    (hs : l.Pairwise (fun x y : String => x ≤ y)) (a : String) :
    a ∈ adjacentDupes l ↔ 2 ≤ l.count a := by
  induction l with
  | nil => simp [adjacentDupes]
  | cons x t ih =>
    cases t with
    | nil =>
      rw [adjacentDupes_singleton]
      simp only [List.not_mem_nil, false_iff, List.count_cons, List.count_nil]
      by_cases hax : x = a <;> simp [hax]
    | cons y t2 =>
      have hs2 : (y :: t2).Pairwise (fun x y : String => x ≤ y) := hs.of_cons
      have hx_le : ∀ z ∈ y :: t2, x ≤ z := (List.pairwise_cons.1 hs).1
      have ihy := ih hs2
      by_cases hxy : x = y
      · subst hxy
        rw [adjacentDupes_cons2, if_pos rfl, List.singleton_append]
        by_cases hax : a = x
        · subst hax
          have hcc : List.count a (a :: a :: t2) = List.count a t2 + 2 := by
            rw [List.count_cons a a (a :: t2), List.count_cons a a t2]
            simp
          rw [hcc]
          exact ⟨fun _ => by omega, fun _ => List.mem_cons_self a _⟩
        · have hne : (x == a) = false := by simpa using fun h => hax h.symm
          have hcc : List.count a (x :: x :: t2) = List.count a (x :: t2) := by
            rw [List.count_cons a x (x :: t2), hne]
            simp
          rw [List.mem_cons, ihy, hcc]
          constructor
          · rintro (rfl | h)
            · exact absurd rfl hax
            · exact h
          · exact fun h => Or.inr h
      · rw [adjacentDupes_cons2, if_neg hxy, List.nil_append, ihy]
        by_cases hax : a = x
        · subst hax
          have hnotin : a ∉ y :: t2 := by
            intro hmem
            rcases List.mem_cons.1 hmem with rfl | hmem2
            · exact hxy rfl
            · have h1 : a ≤ y := hx_le y (by simp)
              have h2 : y ≤ a := (List.pairwise_cons.1 hs2).1 a hmem2
              exact hxy (le_antisymm h1 h2)
          have hc : (y :: t2).count a = 0 := List.count_eq_zero.2 hnotin
          have hcc : List.count a (a :: y :: t2) = 1 := by
            rw [List.count_cons a a (y :: t2), hc]
            simp
          rw [hc, hcc]
          omega
        · have hne : (x == a) = false := by simpa using fun h => hax h.symm
          have hcc : List.count a (x :: y :: t2) = List.count a (y :: t2) := by
            rw [List.count_cons a x (y :: t2), hne]
            simp
          rw [hcc]

theorem adjacentDupes_eq_nil_iff_nodup {l : List String}
    (hs : l.Pairwise (fun x y : String => x ≤ y)) :
    adjacentDupes l = [] ↔ l.Nodup := by
  rw [List.eq_nil_iff_forall_not_mem, List.nodup_iff_count_le_one]
  constructor
  · intro h a
    have := h a
    rw [mem_adjacentDupes_of_sorted hs] at this
    omega
  · intro h a
    rw [mem_adjacentDupes_of_sorted hs]
    have := h a
    omega

/-! Part: lemmas about collection construction and verification -/

theorem idsOf_sortBy_pairwise (rs : List Resource) :
    (idsOf (sortBy Resource.id rs)).Pairwise (fun x y : String => x ≤ y) := by
  rw [idsOf, List.pairwise_map]
  exact sortBy_pairwise Resource.id rs

theorem idsOf_perm {rs₁ rs₂ : List Resource} (h : List.Perm rs₁ rs₂) :
    List.Perm (idsOf rs₁) (idsOf rs₂) :=
  h.map Resource.id

/-- Let-free unfolding of the verification function. -/
theorem verify_eq (mp : String → String → Bool) (c : Resources) :
    c.verify mp =
      (if (adjacentDupes (idsOf c.resources)).isEmpty then
        (if (sortStr ((idsOf c.resources).filter (fun i => !(c.is_managed mp i)))).isEmpty
          then Except.ok ()
          else Except.error ("unmanaged resources: " ++ joinWith (", ")
            (sortStr ((idsOf c.resources).filter (fun i => !(c.is_managed mp i))))))
      else Except.error ("duplicate resources: " ++ joinWith (", ")
        (sortedUnique (adjacentDupes (idsOf c.resources))))) := rfl

/-- Unfolding of the constructor. -/
theorem mkResources_eq (mp : String → String → Bool) (rs : List Resource) (m : List String) :
    mkResources mp rs m =
      (match Resources.verify mp ⟨sortBy Resource.id rs, m⟩ with
        | .ok _ => Except.ok ⟨sortBy Resource.id rs, m⟩
        | .error e => Except.error e) := rfl

/-- Unfold a successful construction: the collection is the sorted
input with the given patterns, and it verifies. -/
theorem mkResources_ok {mp : String → String → Bool} {rs : List Resource}
    {m : List String} {c : Resources} (h : mkResources mp rs m = .ok c) :
    c = ⟨sortBy Resource.id rs, m⟩ ∧ c.verify mp = .ok () := by
  rw [mkResources_eq] at h
  cases hv : Resources.verify mp ⟨sortBy Resource.id rs, m⟩ with
  | ok u =>
    cases u
    rw [hv] at h
    simp only [Except.ok.injEq] at h
    subst h
    exact ⟨rfl, hv⟩
  | error e =>
    rw [hv] at h
    simp at h

/-- A collection verifies exactly when its id sequence has no adjacent
duplicates and every id is managed. -/
theorem verify_ok_iff {mp : String → String → Bool} {c : Resources} :
    c.verify mp = .ok () ↔ adjacentDupes (idsOf c.resources) = []
      ∧ (idsOf c.resources).filter (fun i => !(c.is_managed mp i)) = [] := by
  rw [verify_eq]
  by_cases hd : adjacentDupes (idsOf c.resources) = []
  · have hd' : (adjacentDupes (idsOf c.resources)).isEmpty = true := by simp [hd]
    rw [if_pos hd']
    by_cases hu : (idsOf c.resources).filter (fun i => !(c.is_managed mp i)) = []
    · have hu' : (sortStr ((idsOf c.resources).filter
          (fun i => !(c.is_managed mp i)))).isEmpty = true := by
        rw [hu]
        rfl
      rw [if_pos hu']
      simp [hd, hu]
    · have hsort : sortStr ((idsOf c.resources).filter
          (fun i => !(c.is_managed mp i))) ≠ [] := by
        intro hnil
        have hperm := sortStr_perm ((idsOf c.resources).filter (fun i => !(c.is_managed mp i)))
        rw [hnil] at hperm
        exact hu hperm.symm.eq_nil
      have hu' : (sortStr ((idsOf c.resources).filter
          (fun i => !(c.is_managed mp i)))).isEmpty = false := by
        simpa using hsort
      rw [if_neg (by simp [hu'])]
      simp [hu]
  · have hd' : (adjacentDupes (idsOf c.resources)).isEmpty = false := by
      simpa using hd
    rw [if_neg (by simp [hd'])]
    simp [hd]

/-- Let-free unfolding of add. -/
theorem add_eq (mp : String → String → Bool) (c : Resources) (r : Resource) :
    c.add mp r =
      (if c.is_managed mp r.id then
        Except.ok ⟨insertSortedBy Resource.id r c.resources, c.managed⟩
      else Except.error ("unmanaged resource: " ++ r.id)) := rfl

theorem add_ok {mp : String → String → Bool} {c c2 : Resources} {r : Resource}
    (h : c.add mp r = .ok c2) :
    c.is_managed mp r.id = true ∧
      c2 = ⟨insertSortedBy Resource.id r c.resources, c.managed⟩ := by
  rw [add_eq] at h
  by_cases hm : c.is_managed mp r.id
  · rw [if_pos hm] at h
    simp only [Except.ok.injEq] at h
    exact ⟨hm, h.symm⟩
  · rw [if_neg hm] at h
    simp at h

/-- The id sequence of every reachable collection is weakly sorted. -/
theorem reachable_pairwise {mp : String → String → Bool} {c : Resources}
    (hr : Reachable mp c) :
    (idsOf c.resources).Pairwise (fun x y : String => x ≤ y) := by
  induction hr with
  | mk h =>
    rcases mkResources_ok h with ⟨rfl, _⟩
    exact idsOf_sortBy_pairwise _
  | add _ hadd ih =>
    rcases add_ok hadd with ⟨_, rfl⟩
    rw [idsOf, List.pairwise_map] at ih ⊢
    exact pairwise_insertSortedBy Resource.id _ ih

/-- Claim C7: iterating a reachable collection that verifies yields its ids
in strictly ascending lexicographic order.  Construction always
verifies, and a collection obtained by add is strictly sorted whenever
it still verifies (an add that introduced a duplicate id no longer
verifies, see the add-duplicate theorem). -/
theorem verified_iteration_strictly_sorted {mp : String → String → Bool} {c : Resources}
    (hr : Reachable mp c) (hv : c.verify mp = .ok ()) :
    (idsOf c.resources).Pairwise (fun x y : String => x < y) := by
  have weak := reachable_pairwise hr
  have hnil := (verify_ok_iff.1 hv).1
  have hnodup := (adjacentDupes_eq_nil_iff_nodup weak).1 hnil
  exact (weak.and hnodup).imp (fun h => lt_of_le_of_ne h.1 h.2)

/-- Witness for the strict-iteration theorem at a concrete two-element
collection. -/
theorem verified_iteration_strictly_sorted_witness :
    (idsOf (Resources.mk
      [⟨"Worker", [("workerId", "a")]⟩, ⟨"Worker", [("workerId", "b")]⟩]
      ["Worker=a", "Worker=b"]).resources).Pairwise (fun x y : String => x < y) := by
  have hmk : mkResources (fun p i => p == i)
      [⟨"Worker", [("workerId", "b")]⟩, ⟨"Worker", [("workerId", "a")]⟩]
      ["Worker=a", "Worker=b"]
      = .ok ⟨[⟨"Worker", [("workerId", "a")]⟩, ⟨"Worker", [("workerId", "b")]⟩],
        ["Worker=a", "Worker=b"]⟩ := rfl
  exact verified_iteration_strictly_sorted (Reachable.mk hmk) rfl

/-- Claim C3: a constructor input with a repeated id fails with an error
listing exactly the sorted, deduplicated ids that occur at least twice
(eager verification means no later call ever sees such a collection).
-/
theorem construction_duplicate_ids (mp : String → String → Bool)
    (rs : List Resource) (m : List String)
    (hdup : ¬ (idsOf rs).Nodup) :
    ∃ ds : List String,
      mkResources mp rs m = .error ("duplicate resources: " ++ joinWith (", ") ds) ∧
      ds.Pairwise (fun x y : String => x ≤ y) ∧ ds.Nodup ∧
      (∀ i, i ∈ ds ↔ 2 ≤ (idsOf rs).count i) := by
  have hperm : List.Perm (idsOf (sortBy Resource.id rs)) (idsOf rs) :=
    idsOf_perm (sortBy_perm Resource.id rs)
  have hsorted := idsOf_sortBy_pairwise rs
  have hdup2 : ¬ (idsOf (sortBy Resource.id rs)).Nodup := by
    intro h
    exact hdup (hperm.nodup_iff.1 h)
  have hne : adjacentDupes (idsOf (sortBy Resource.id rs)) ≠ [] := by
    intro h
    exact hdup2 ((adjacentDupes_eq_nil_iff_nodup hsorted).1 h)
  refine ⟨sortedUnique (adjacentDupes (idsOf (sortBy Resource.id rs))), ?_, ?_, ?_, ?_⟩
  · rw [mkResources_eq]
    have hd' : (adjacentDupes (idsOf (Resources.mk (sortBy Resource.id rs) m).resources)).isEmpty
        = false := by
      simpa using hne
    rw [verify_eq, if_neg (by simp [hd'])]
  · exact pairwise_sortedUnique _
  · exact nodup_sortedUnique _
  · intro i
    rw [mem_sortedUnique, mem_adjacentDupes_of_sorted hsorted, hperm.count_eq]

/-- Closed witness for the duplicate-construction theorem: two workers
with the same id. -/
theorem construction_duplicate_ids_witness :
    ¬ (idsOf [(⟨"Worker", [("workerId", "a")]⟩ : Resource),
        ⟨"Worker", [("workerId", "a")]⟩]).Nodup ∧
    mkResources (fun p i => p == i)
      [⟨"Worker", [("workerId", "a")]⟩, ⟨"Worker", [("workerId", "a")]⟩] ["Worker=a"]
      = .error ("duplicate resources: Worker=a") := by
  constructor
  · decide
  · rcases construction_duplicate_ids (fun p i => p == i)
      [⟨"Worker", [("workerId", "a")]⟩, ⟨"Worker", [("workerId", "a")]⟩] ["Worker=a"]
      (by decide) with ⟨ds, herr, hsort, hnodup, hmem⟩
    have hds : ds = ["Worker=a"] := by
      have h1 : "Worker=a" ∈ ds := by
        rw [hmem]
        decide
      have hchar : ∀ i : String,
          2 ≤ (idsOf [(⟨"Worker", [("workerId", "a")]⟩ : Resource),
            ⟨"Worker", [("workerId", "a")]⟩]).count i → i = "Worker=a" := by
        intro i hc
        by_contra hne
        have hb : ("Worker=a" == i) = false := by
          simpa using fun hh => hne hh.symm
        have : (idsOf [(⟨"Worker", [("workerId", "a")]⟩ : Resource),
            ⟨"Worker", [("workerId", "a")]⟩]).count i = 0 := by
          show List.count i ["Worker=a", "Worker=a"] = 0
          rw [List.count_cons, List.count_cons, List.count_nil, hb]
          simp
        omega
      have hsub : ∀ i ∈ ds, i = "Worker=a" := by
        intro i hi
        exact hchar i ((hmem i).1 hi)
      cases ds with
      | nil => cases h1
      | cons d t =>
        have hd := hsub d (by simp)
        subst hd
        cases t with
        | nil => rfl
        | cons e t2 =>
          have he := hsub e (by simp)
          subst he
          simp at hnodup
    rw [hds] at herr
    exact herr

/-- Claim C4: with distinct ids, construction fails iff some id is unmanaged,
and the error lists all unmanaged ids, sorted; construction succeeds
exactly when every id matches some managed pattern. -/
theorem construction_unmanaged (mp : String → String → Bool)
    (rs : List Resource) (m : List String) (hnod : (idsOf rs).Nodup) :
    ((∃ r ∈ rs, ¬ (m.any (fun p => mp p r.id) = true)) →
      ∃ us : List String,
        mkResources mp rs m = .error ("unmanaged resources: " ++ joinWith (", ") us) ∧
        us.Pairwise (fun x y : String => x ≤ y) ∧ us.Nodup ∧
        (∀ i, i ∈ us ↔ i ∈ idsOf rs ∧ ¬ (m.any (fun p => mp p i) = true)))
    ∧ ((∀ r ∈ rs, m.any (fun p => mp p r.id) = true) →
      mkResources mp rs m = .ok ⟨sortBy Resource.id rs, m⟩) := by
  have hperm : List.Perm (idsOf (sortBy Resource.id rs)) (idsOf rs) :=
    idsOf_perm (sortBy_perm Resource.id rs)
  have hsorted := idsOf_sortBy_pairwise rs
  have hnod2 : (idsOf (sortBy Resource.id rs)).Nodup := hperm.nodup_iff.2 hnod
  have hnil : adjacentDupes (idsOf (sortBy Resource.id rs)) = [] :=
    (adjacentDupes_eq_nil_iff_nodup hsorted).2 hnod2
  have hman : ∀ i, (Resources.mk (sortBy Resource.id rs) m).is_managed mp i
      = m.any (fun p => mp p i) := fun _ => rfl
  constructor
  · rintro ⟨r, hr, hrm⟩
    have hmem : r.id ∈ (idsOf (sortBy Resource.id rs)).filter
        (fun i => !(m.any (fun p => mp p i))) := by
      rw [List.mem_filter]
      refine ⟨hperm.mem_iff.2 ?_, by simp [hrm]⟩
      exact List.mem_map.2 ⟨r, hr, rfl⟩
    have hfne : (idsOf (sortBy Resource.id rs)).filter
        (fun i => !(m.any (fun p => mp p i))) ≠ [] := by
      intro h
      rw [h] at hmem
      cases hmem
    refine ⟨sortStr ((idsOf (sortBy Resource.id rs)).filter
        (fun i => !(m.any (fun p => mp p i)))), ?_, ?_, ?_, ?_⟩
    · rw [mkResources_eq, verify_eq]
      have hd' : (adjacentDupes (idsOf (Resources.mk (sortBy Resource.id rs) m).resources)).isEmpty
          = true := by
        simp [hnil, idsOf]
        have : adjacentDupes (List.map Resource.id (sortBy Resource.id rs)) = [] := by
          simpa [idsOf] using hnil
        simp [this]
      rw [if_pos hd']
      have hsne : sortStr ((idsOf (Resources.mk (sortBy Resource.id rs) m).resources).filter
          (fun i => !(Resources.mk (sortBy Resource.id rs) m).is_managed mp i)) ≠ [] := by
        intro h
        have hp := sortStr_perm ((idsOf (sortBy Resource.id rs)).filter
          (fun i => !(m.any (fun p => mp p i))))
        rw [show ((idsOf (Resources.mk (sortBy Resource.id rs) m).resources).filter
            (fun i => !(Resources.mk (sortBy Resource.id rs) m).is_managed mp i))
          = ((idsOf (sortBy Resource.id rs)).filter
            (fun i => !(m.any (fun p => mp p i)))) from rfl] at h
        rw [h] at hp
        exact hfne hp.symm.eq_nil
      rw [if_neg (by simpa using hsne)]
      rfl
    · exact sortStr_pairwise _
    · exact (sortStr_perm _).nodup_iff.2 (hnod2.filter _)
    · intro i
      rw [mem_sortStr, List.mem_filter, hperm.mem_iff]
      simp
  · intro hall
    rw [mkResources_eq, verify_eq]
    have hfnil : (idsOf (sortBy Resource.id rs)).filter
        (fun i => !(m.any (fun p => mp p i))) = [] := by
      rw [List.filter_eq_nil_iff]
      intro i hi
      rw [idsOf] at hi
      rcases List.mem_map.1 hi with ⟨r, hr, rfl⟩
      have := hall r ((sortBy_perm Resource.id rs).mem_iff.1 hr)
      simp [this]
    have hd' : (adjacentDupes (idsOf (Resources.mk (sortBy Resource.id rs) m).resources)).isEmpty
        = true := by
      have : adjacentDupes (idsOf (sortBy Resource.id rs)) = [] := hnil
      simpa [idsOf] using congrArg List.isEmpty this
    rw [if_pos hd']
    have hs0 : sortStr ((idsOf (Resources.mk (sortBy Resource.id rs) m).resources).filter
        (fun i => !(Resources.mk (sortBy Resource.id rs) m).is_managed mp i)) = [] := by
      rw [show ((idsOf (Resources.mk (sortBy Resource.id rs) m).resources).filter
          (fun i => !(Resources.mk (sortBy Resource.id rs) m).is_managed mp i))
        = ((idsOf (sortBy Resource.id rs)).filter
          (fun i => !(m.any (fun p => mp p i)))) from rfl, hfnil]
      rfl
    rw [if_pos (by simp [hs0])]

/-- Closed witness for the unmanaged-construction theorem: one managed
and one unmanaged resource. -/
theorem construction_unmanaged_witness :
    mkResources (fun p i => p == i)
      [⟨"Worker", [("workerId", "a")]⟩, ⟨"Worker", [("workerId", "b")]⟩] ["Worker=a"]
      = .error ("unmanaged resources: Worker=b") ∧
    mkResources (fun p i => p == i)
      [⟨"Worker", [("workerId", "a")]⟩] ["Worker=a"]
      = .ok ⟨[⟨"Worker", [("workerId", "a")]⟩], ["Worker=a"]⟩ := by
  constructor
  · rcases (construction_unmanaged (fun p i => p == i)
        [⟨"Worker", [("workerId", "a")]⟩, ⟨"Worker", [("workerId", "b")]⟩] ["Worker=a"]
        (by decide)).1
        ⟨⟨"Worker", [("workerId", "b")]⟩, by simp, by decide⟩ with ⟨us, herr, hsort, hnodup, hmem⟩
    have hchar : ∀ i : String, i ∈ idsOf [(⟨"Worker", [("workerId", "a")]⟩ : Resource),
        ⟨"Worker", [("workerId", "b")]⟩] ∧
        ¬ ((["Worker=a"].any (fun p => (fun p i => p == i) p i)) = true) → i = "Worker=b" := by
      intro i hi
      rcases hi with ⟨hmemi, hnm⟩
      have : i = "Worker=a" ∨ i = "Worker=b" := by
        have : i ∈ ["Worker=a", "Worker=b"] := hmemi
        simpa using this
      rcases this with rfl | rfl
      · exact absurd (by decide) hnm
      · rfl
    have hin : "Worker=b" ∈ us := by
      rw [hmem]
      exact ⟨by decide, by decide⟩
    have hus : us = ["Worker=b"] := by
      cases us with
      | nil => cases hin
      | cons d t =>
        have hd := hchar d ((hmem d).1 (by simp))
        subst hd
        cases t with
        | nil => rfl
        | cons e t2 =>
          have he := hchar e ((hmem e).1 (by simp))
          subst he
          simp at hnodup
    rw [hus] at herr
    exact herr
  · exact (construction_unmanaged (fun p i => p == i)
      [⟨"Worker", [("workerId", "a")]⟩] ["Worker=a"] (by decide)).2 (by decide)

/-- Claim C8: add fails with an error naming the id exactly when no managed
pattern matches it (the Python method raises before any mutation, so
the collection is unchanged); otherwise it returns the collection with
the resource inserted, the managed patterns unchanged, and sortedness
by id preserved. -/
theorem add_characterization (mp : String → String → Bool) (c : Resources) (r : Resource) :
    (c.is_managed mp r.id = false →
      c.add mp r = .error ("unmanaged resource: " ++ r.id)) ∧
    (c.is_managed mp r.id = true →
      ∃ c2 : Resources, c.add mp r = .ok c2 ∧ c2.managed = c.managed ∧
        List.Perm c2.resources (r :: c.resources) ∧
        ((idsOf c.resources).Pairwise (fun x y : String => x ≤ y) →
          (idsOf c2.resources).Pairwise (fun x y : String => x ≤ y))) := by
  constructor
  · intro hf
    rw [add_eq, if_neg (by simp [hf])]
  · intro ht
    refine ⟨⟨insertSortedBy Resource.id r c.resources, c.managed⟩, ?_, rfl, ?_, ?_⟩
    · rw [add_eq, if_pos ht]
    · exact insertSortedBy_perm Resource.id r c.resources
    · intro hs
      rw [idsOf, List.pairwise_map] at hs ⊢
      exact pairwise_insertSortedBy Resource.id r hs

/-- Closed witness for the add theorem, both branches at concrete
inputs. -/
theorem add_characterization_witness :
    (Resources.mk [⟨"Worker", [("workerId", "a")]⟩] ["Worker=a"]).add
      (fun p i => p == i) ⟨"Queue", [("name", "q")]⟩
      = .error ("unmanaged resource: Queue=q") ∧
    ∃ c2 : Resources,
      (Resources.mk [⟨"Worker", [("workerId", "a")]⟩] ["Worker=a", "Worker=b"]).add
        (fun p i => p == i) ⟨"Worker", [("workerId", "b")]⟩ = .ok c2 ∧
      c2.managed = ["Worker=a", "Worker=b"] ∧
      List.Perm c2.resources
        (⟨"Worker", [("workerId", "b")]⟩ ::
          [⟨"Worker", [("workerId", "a")]⟩]) ∧
      ((idsOf [(⟨"Worker", [("workerId", "a")]⟩ : Resource)]).Pairwise
          (fun x y : String => x ≤ y) →
        (idsOf c2.resources).Pairwise (fun x y : String => x ≤ y)) := by
  constructor
  · exact (add_characterization (fun p i => p == i)
      ⟨[⟨"Worker", [("workerId", "a")]⟩], ["Worker=a"]⟩ ⟨"Queue", [("name", "q")]⟩).1 rfl
  · exact (add_characterization (fun p i => p == i)
      ⟨[⟨"Worker", [("workerId", "a")]⟩], ["Worker=a", "Worker=b"]⟩
      ⟨"Worker", [("workerId", "b")]⟩).2 rfl

/-- Claim C10: add does not check for duplicates: adding a managed resource
whose id is already present succeeds, the id then occurs at least
twice, and the next verification fails with a duplicate error listing
that id. -/
theorem add_duplicate_detected_late (mp : String → String → Bool)
    (c : Resources) (r : Resource)
    (hs : (idsOf c.resources).Pairwise (fun x y : String => x ≤ y))
    (hv : c.verify mp = .ok ())
    (hm : c.is_managed mp r.id = true)
    (hmem : r.id ∈ idsOf c.resources) :
    ∃ c2 : Resources, c.add mp r = .ok c2 ∧
      2 ≤ (idsOf c2.resources).count r.id ∧
      ∃ ds : List String,
        c2.verify mp = .error ("duplicate resources: " ++ joinWith (", ") ds) ∧
        r.id ∈ ds := by
  refine ⟨⟨insertSortedBy Resource.id r c.resources, c.managed⟩, ?_, ?_, ?_⟩
  · rw [add_eq, if_pos hm]
  · have hp : List.Perm (idsOf (insertSortedBy Resource.id r c.resources))
        (r.id :: idsOf c.resources) :=
      idsOf_perm (insertSortedBy_perm Resource.id r c.resources)
    rw [show idsOf (Resources.mk (insertSortedBy Resource.id r c.resources) c.managed).resources
      = idsOf (insertSortedBy Resource.id r c.resources) from rfl]
    rw [hp.count_eq]
    have h1 : 0 < (idsOf c.resources).count r.id := List.count_pos_iff.2 hmem
    rw [List.count_cons]
    simp only [beq_self_eq_true, if_true]
    omega
  · have hs2 : (idsOf (insertSortedBy Resource.id r c.resources)).Pairwise
        (fun x y : String => x ≤ y) := by
      rw [idsOf, List.pairwise_map] at hs ⊢
      exact pairwise_insertSortedBy Resource.id r hs
    have hcount : 2 ≤ (idsOf (insertSortedBy Resource.id r c.resources)).count r.id := by
      have hp : List.Perm (idsOf (insertSortedBy Resource.id r c.resources))
          (r.id :: idsOf c.resources) :=
        idsOf_perm (insertSortedBy_perm Resource.id r c.resources)
      rw [hp.count_eq, List.count_cons]
      have h1 : 0 < (idsOf c.resources).count r.id := List.count_pos_iff.2 hmem
      simp only [beq_self_eq_true, if_true]
      omega
    have hmem2 : r.id ∈ adjacentDupes (idsOf (insertSortedBy Resource.id r c.resources)) :=
      (mem_adjacentDupes_of_sorted hs2 r.id).2 hcount
    have hne : adjacentDupes (idsOf (insertSortedBy Resource.id r c.resources)) ≠ [] := by
      intro h
      rw [h] at hmem2
      cases hmem2
    refine ⟨sortedUnique (adjacentDupes (idsOf (insertSortedBy Resource.id r c.resources))),
      ?_, ?_⟩
    · rw [verify_eq]
      rw [if_neg (by simpa using hne)]
    · rw [mem_sortedUnique]
      exact hmem2

/-- Closed witness for the late duplicate detection theorem. -/
theorem add_duplicate_detected_late_witness :
    ∃ c2 : Resources,
      (Resources.mk [⟨"Worker", [("workerId", "a"), ("count", "3")]⟩] ["Worker=a"]).add
        (fun p i => p == i) ⟨"Worker", [("workerId", "a"), ("count", "5")]⟩ = .ok c2 ∧
      2 ≤ (idsOf c2.resources).count "Worker=a" ∧
      ∃ ds : List String,
        c2.verify (fun p i => p == i)
          = .error ("duplicate resources: " ++ joinWith (", ") ds) ∧
        "Worker=a" ∈ ds := by
  exact add_duplicate_detected_late (fun p i => p == i)
    ⟨[⟨"Worker", [("workerId", "a"), ("count", "3")]⟩], ["Worker=a"]⟩
    ⟨"Worker", [("workerId", "a"), ("count", "5")]⟩
    (by decide) (by rfl) (by rfl) (by decide)

/-! Part: the id string determines the kind -/

/-- Splitting a character list at a separator absent from both prefix
parts is unambiguous. -/
theorem append_sep_inj {k1 : List Char} : ∀ {k2 t1 t2 : List Char},
    '=' ∉ k1 → '=' ∉ k2 →
    k1 ++ '=' :: t1 = k2 ++ '=' :: t2 → k1 = k2 := by
  induction k1 with
  | nil =>
    intro k2 t1 t2 _ h2 h
    cases k2 with
    | nil => rfl
    | cons c k2 =>
      rw [List.nil_append] at h
      have hc : c = '=' := by
        have := congrArg List.head? h
        simpa using this.symm
      subst hc
      exact absurd (by simp) h2
  | cons c k1 ih =>
    intro k2 t1 t2 h1 h2 h
    cases k2 with
    | nil =>
      rw [List.nil_append] at h
      have hc : c = '=' := by
        have := congrArg List.head? h
        simpa using this
      subst hc
      exact absurd (by simp) h1
    | cons d k2 =>
      simp only [List.cons_append, List.cons.injEq] at h
      rcases h with ⟨rfl, htl⟩
      have := ih (fun hm => h1 (by simp [hm])) (fun hm => h2 (by simp [hm])) htl
      rw [this]

/-- The character data of a resource id: the kind, an equals sign, the
primary-key value. -/
theorem id_data (r : Resource) :
    (Resource.id r).data
      = r.kind.data ++ '=' :: ((r.fields.head?.getD ("", "")).2).data := by
  rw [Resource.id, String.data_append, String.data_append]
  simp

/-- A successful dict lookup returns a member carrying the looked-up
id. -/
theorem lookupLast_some {rs : List Resource} {i : String} {r : Resource}
    (h : lookupLast rs i = some r) : r ∈ rs ∧ r.id = i := by
  rw [lookupLast] at h
  refine ⟨List.mem_reverse.1 (List.mem_of_find?_eq_some h), ?_⟩
  have := List.find?_some h
  simpa using this

/-- A dict lookup fails exactly when the id belongs to no resource. -/
theorem lookupLast_eq_none {rs : List Resource} {i : String} :
    lookupLast rs i = none ↔ i ∉ idsOf rs := by
  rw [lookupLast, List.find?_eq_none]
  constructor
  · intro h hmem
    rcases List.mem_map.1 hmem with ⟨r, hr, rfl⟩
    exact h r (List.mem_reverse.2 hr) (by simp)
  · intro h r hr hid
    refine h (List.mem_map.2 ⟨r, List.mem_reverse.1 hr, ?_⟩)
    simpa using hid

/-- Claim C9: two resources with the same id have the same kind, because the
id is the kind, an equals sign, and the primary-key value, and a kind
is a Python class name, which cannot contain an equals sign.  In
particular, for the two dict lookups of one id inside id_diff the kind
test always succeeds, so the branch that would emit a changed-kind
entry for resources sharing an id but differing in kind is
unreachable. -/
theorem id_determines_kind :
    (∀ r1 r2 : Resource, '=' ∉ r1.kind.data → '=' ∉ r2.kind.data →
      r1.id = r2.id → r1.kind = r2.kind) ∧
    (∀ (generated current : List Resource) (i : String) (g c : Resource),
      (∀ r ∈ generated ++ current, '=' ∉ r.kind.data) →
      lookupLast generated i = some g → lookupLast current i = some c →
      c.kind = g.kind) := by
  have main : ∀ r1 r2 : Resource, '=' ∉ r1.kind.data → '=' ∉ r2.kind.data →
      r1.id = r2.id → r1.kind = r2.kind := by
    intro r1 r2 h1 h2 h
    have hd := congrArg String.data h
    rw [id_data, id_data] at hd
    exact String.ext (append_sep_inj h1 h2 hd)
  refine ⟨main, ?_⟩
  intro generated current i g c hk hg hc
  rcases lookupLast_some hg with ⟨hgmem, hgid⟩
  rcases lookupLast_some hc with ⟨hcmem, hcid⟩
  exact main c g (hk c (by simp [hcmem])) (hk g (by simp [hgmem]))
    (by rw [hgid, hcid])

/-- Closed witness for the id-determines-kind theorem at concrete
resources. -/
theorem id_determines_kind_witness :
    ('=' ∉ ("Worker").data) ∧
    (⟨"Worker", [("workerId", "a"), ("count", "3")]⟩ : Resource).id
      = (⟨"Worker", [("workerId", "a"), ("count", "5")]⟩ : Resource).id ∧
    (⟨"Worker", [("workerId", "a"), ("count", "3")]⟩ : Resource).kind
      = (⟨"Worker", [("workerId", "a"), ("count", "5")]⟩ : Resource).kind := by
  refine ⟨by decide, by rfl, ?_⟩
  exact id_determines_kind.1
    ⟨"Worker", [("workerId", "a"), ("count", "3")]⟩
    ⟨"Worker", [("workerId", "a"), ("count", "5")]⟩
    (by decide) (by decide) (by rfl)

/-! Part: the serialization round trip -/

/-- Deserializing the serialized resources recovers them exactly when
every kind is registered. -/
theorem mapM_from_json_to_json (kinds : List String) :
    ∀ rs : List Resource, (∀ r ∈ rs, r.kind ∈ kinds) →
    (rs.map Resource.to_json).mapM (Resource.from_json kinds) = .ok rs := by
  intro rs
  induction rs with
  | nil => intro _; rfl
  | cons r t ih =>
    intro h
    have hr : Resource.from_json kinds (Resource.to_json r) = .ok r := by
      rw [Resource.from_json]
      rw [if_pos (show (Resource.to_json r).kind ∈ kinds from h r (by simp))]
      rfl
    rw [List.map_cons, List.mapM_cons, hr, ih (fun x hx => h x (by simp [hx]))]
    rfl

/-- Claim C1: for every collection that constructs successfully (pairwise
distinct ids, full pattern coverage) and whose kinds are all
registered, serializing and deserializing yields the collection back
exactly: the resource list is re-sorted on load, and sorting the
already-sorted list is the identity, so the round trip is the identity.
-/
theorem round_trip (mp : String → String → Bool) (kinds : List String)
    (rs : List Resource) (m : List String) (c : Resources)
    (hmk : mkResources mp rs m = .ok c)
    (hkinds : ∀ r ∈ c.resources, r.kind ∈ kinds) :
    ∃ j : ResourcesJson, c.to_json mp = .ok j ∧
      Resources.from_json kinds mp j = .ok c := by
  rcases mkResources_ok hmk with ⟨hc, hv⟩
  refine ⟨⟨c.resources.map Resource.to_json, c.managed⟩, ?_, ?_⟩
  · rw [Resources.to_json, hv]
  · rw [Resources.from_json]
    have hmapM := mapM_from_json_to_json kinds c.resources hkinds
    rw [show (⟨c.resources.map Resource.to_json, c.managed⟩ : ResourcesJson).resources
      = c.resources.map Resource.to_json from rfl]
    rw [hmapM]
    show mkResources mp c.resources c.managed = Except.ok c
    have hsorted : c.resources.Pairwise (fun a b : Resource => a.id ≤ b.id) := by
      have := idsOf_sortBy_pairwise rs
      rw [hc]
      rw [idsOf, List.pairwise_map] at this
      exact this
    have hself : sortBy Resource.id c.resources = c.resources :=
      sortBy_eq_self Resource.id hsorted
    rw [mkResources_eq, hself]
    have hcc : (⟨c.resources, c.managed⟩ : Resources) = c := rfl
    rw [hcc, hv]

/-- Closed witness for the round-trip theorem at a concrete two-element
collection. -/
theorem round_trip_witness :
    ∃ j : ResourcesJson,
      (Resources.mk
        [⟨"Queue", [("name", "q")]⟩, ⟨"Worker", [("workerId", "a")]⟩]
        ["Queue=q", "Worker=a"]).to_json (fun p i => p == i) = .ok j ∧
      Resources.from_json ["Queue", "Worker"] (fun p i => p == i) j
        = .ok (Resources.mk
          [⟨"Queue", [("name", "q")]⟩, ⟨"Worker", [("workerId", "a")]⟩]
          ["Queue=q", "Worker=a"]) := by
  exact round_trip (fun p i => p == i) ["Queue", "Worker"]
    [⟨"Worker", [("workerId", "a")]⟩, ⟨"Queue", [("name", "q")]⟩]
    ["Queue=q", "Worker=a"]
    ⟨[⟨"Queue", [("name", "q")]⟩, ⟨"Worker", [("workerId", "a")]⟩],
      ["Queue=q", "Worker=a"]⟩
    (by rfl) (by decide)

/-! Part: the identity diff against its specification -/

/-- A first-occurrence search fails exactly when the id belongs to no
resource. -/
theorem find?_id_eq_none {rs : List Resource} {i : String} :
    rs.find? (fun r => r.id == i) = none ↔ i ∉ idsOf rs := by
  rw [List.find?_eq_none]
  constructor
  · intro h hmem
    rcases List.mem_map.1 hmem with ⟨r, hr, rfl⟩
    exact h r hr (by simp)
  · intro h r hr hid
    refine h (List.mem_map.2 ⟨r, hr, ?_⟩)
    simpa using hid

/-- With pairwise distinct ids, the last-occurrence dict lookup agrees
with the first-occurrence search. -/
theorem lookupLast_eq_find? {rs : List Resource} (hnod : (idsOf rs).Nodup) (i : String) :
    lookupLast rs i = rs.find? (fun r => r.id == i) := by
  cases hf : rs.find? (fun r => r.id == i) with
  | none =>
    rw [find?_id_eq_none] at hf
    exact lookupLast_eq_none.2 hf
  | some r =>
    have hrmem := List.mem_of_find?_eq_some hf
    have hrid : r.id = i := by simpa using List.find?_some hf
    cases hl : lookupLast rs i with
    | none =>
      rw [lookupLast_eq_none] at hl
      exact absurd (List.mem_map.2 ⟨r, hrmem, hrid⟩) hl
    | some s =>
      rcases lookupLast_some hl with ⟨hsmem, hsid⟩
      have hmapnod : (List.map Resource.id rs).Nodup := hnod
      have hsr : s = r :=
        List.inj_on_of_nodup_map hmapnod hsmem hrmem (by rw [hsid, hrid])
      rw [hsr]

/-- Membership in the sorted union of ids. -/
theorem mem_allResourceIds {generated current : List Resource} {i : String} :
    i ∈ allResourceIds generated current ↔ i ∈ idsOf generated ∨ i ∈ idsOf current := by
  rw [allResourceIds, mem_sortedUnique, List.mem_append]

/-- On an id of the union, the id_diff loop body agrees with the
spec-worded per-id classification, provided ids are pairwise distinct
in each collection and resources sharing an id have the same kind (the
id-determines-kind property). -/
theorem idDiffEntry_eq_spec {generated current : List Resource}
    (hg : (idsOf generated).Nodup) (hc : (idsOf current).Nodup)
    (hkind : ∀ g ∈ generated, ∀ c ∈ current, g.id = c.id → g.kind = c.kind)
    {i : String} (hi : i ∈ idsOf generated ∨ i ∈ idsOf current) :
    idDiffEntry generated current i = specIdDiffEntry generated current i := by
  rw [idDiffEntry, specIdDiffEntry, lookupLast_eq_find? hg, lookupLast_eq_find? hc]
  cases hfg : generated.find? (fun r => r.id == i) with
  | none =>
    cases hfc : current.find? (fun r => r.id == i) with
    | none =>
      rw [find?_id_eq_none] at hfg hfc
      rcases hi with hi | hi
      · exact absurd hi hfg
      · exact absurd hi hfc
    | some c => rfl
  | some g =>
    cases hfc : current.find? (fun r => r.id == i) with
    | none => rfl
    | some c =>
      show (if c = g then none
          else if c.kind = g.kind then some (DiffEntry.changed i (changedFields c g))
          else some (DiffEntry.changed i ["kind"]))
        = (if c = g then none else some (DiffEntry.changed i (changedFields c g)))
      by_cases hcg : c = g
      · rw [if_pos hcg, if_pos hcg]
      · rw [if_neg hcg, if_neg hcg]
        have hgmem := List.mem_of_find?_eq_some hfg
        have hgid : g.id = i := by simpa using List.find?_some hfg
        have hcmem := List.mem_of_find?_eq_some hfc
        have hcid : c.id = i := by simpa using List.find?_some hfc
        have hk : g.kind = c.kind := hkind g hgmem c hcmem (by rw [hgid, hcid])
        rw [if_pos hk.symm]

/-- Claim C2: the identity diff iterates the sorted union of both id sets
and, per id, emits an addition for an id only in generated, a removal
for an id only in current, nothing for structurally equal occupants,
and a changed entry with the sorted differing field names for same-kind
occupants that differ; rendered with the addition, removal and
highlight colours respectively.  The hypotheses are the invariants of
real inputs: pairwise distinct ids per collection, and resources
sharing an id share their kind. -/
theorem id_diff_matches_spec (generated current : List Resource)
    (hg : (idsOf generated).Nodup) (hc : (idsOf current).Nodup)
    (hkind : ∀ g ∈ generated, ∀ c ∈ current, g.id = c.id → g.kind = c.kind) :
    idDiffEntries generated current = specIdDiffEntries generated current ∧
    ∀ green red yellow : String → String,
      id_diff green red yellow generated current
        = joinWith ("\n") ((specIdDiffEntries generated current).map
            (renderEntry green red yellow)) := by
  have hent : idDiffEntries generated current = specIdDiffEntries generated current := by
    rw [idDiffEntries, specIdDiffEntries]
    apply List.filterMap_congr
    intro i hi
    exact idDiffEntry_eq_spec hg hc hkind (mem_allResourceIds.1 hi)
  refine ⟨hent, ?_⟩
  intro green red yellow
  rw [id_diff, hent]

/-- Closed witness for the identity-diff specification theorem,
checking the changed-count spec scenario. -/
theorem id_diff_matches_spec_witness :
    id_diff (fun s => s) (fun s => s) (fun s => s)
      [⟨"Worker", [("workerId", "w1"), ("count", "3")]⟩]
      [⟨"Worker", [("workerId", "w1"), ("count", "5")]⟩]
      = "! Worker=w1 (changed: count)" ∧
    id_diff (fun s => s) (fun s => s) (fun s => s)
      [⟨"Worker", [("workerId", "w1"), ("count", "3")]⟩] [] = "+ Worker=w1" ∧
    id_diff (fun s => s) (fun s => s) (fun s => s)
      [] [⟨"Worker", [("workerId", "w1"), ("count", "3")]⟩] = "- Worker=w1" ∧
    id_diff (fun s => s) (fun s => s) (fun s => s)
      [⟨"Worker", [("workerId", "w1"), ("count", "3")]⟩]
      [⟨"Worker", [("workerId", "w1"), ("count", "3")]⟩] = "" ∧
    joinWith ("\n") ((specIdDiffEntries
        [⟨"Worker", [("workerId", "w1"), ("count", "3")]⟩]
        [⟨"Worker", [("workerId", "w1"), ("count", "5")]⟩]).map
      (renderEntry (fun s => s) (fun s => s) (fun s => s)))
      = "! Worker=w1 (changed: count)" := by
  refine ⟨?_, by rfl, by rfl, by rfl, by rfl⟩
  rw [(id_diff_matches_spec
    [⟨"Worker", [("workerId", "w1"), ("count", "3")]⟩]
    [⟨"Worker", [("workerId", "w1"), ("count", "5")]⟩]
    (by decide) (by decide)
    (by intro g hg c hc _; fin_cases hg <;> fin_cases hc <;> rfl)).2
    (fun s => s) (fun s => s) (fun s => s)]
  rfl

/-- The changed-field list is symmetric in its two arguments when both
resources declare the same field names. -/
theorem changedFields_comm {c g : Resource}
    (h : c.fields.map Prod.fst = g.fields.map Prod.fst) :
    changedFields c g = changedFields g c := by
  rw [changedFields, changedFields, h]
  congr 1
  apply List.filter_congr
  intro k _
  exact decide_eq_decide.2 ne_comm

/-- The sorted union of ids is symmetric. -/
theorem allResourceIds_comm (generated current : List Resource) :
    allResourceIds current generated = allResourceIds generated current := by
  apply sorted_nodup_ext
  · exact pairwise_sortedUnique _
  · exact nodup_sortedUnique _
  · exact pairwise_sortedUnique _
  · exact nodup_sortedUnique _
  · intro i
    rw [mem_allResourceIds, mem_allResourceIds]
    exact Or.comm

/-- On an id of the union, swapping the roles of the two collections
swaps the loop body's additions and removals and keeps changed entries,
provided resources sharing an id and kind declare the same field names
(true of attrs classes, where the kind determines the field list). -/
theorem idDiffEntry_swap {generated current : List Resource}
    (hfields : ∀ g ∈ generated, ∀ c ∈ current, g.id = c.id → g.kind = c.kind →
      c.fields.map Prod.fst = g.fields.map Prod.fst)
    {i : String} (hi : i ∈ idsOf generated ∨ i ∈ idsOf current) :
    idDiffEntry current generated i
      = Option.map swapEntry (idDiffEntry generated current i) := by
  rw [idDiffEntry, idDiffEntry]
  cases hfg : lookupLast generated i with
  | none =>
    cases hfc : lookupLast current i with
    | none =>
      rw [lookupLast_eq_none] at hfg hfc
      rcases hi with hi | hi
      · exact absurd hi hfg
      · exact absurd hi hfc
    | some c => rfl
  | some g =>
    cases hfc : lookupLast current i with
    | none => rfl
    | some c =>
      show (if g = c then none
          else if g.kind = c.kind then some (DiffEntry.changed i (changedFields g c))
          else some (DiffEntry.changed i ["kind"]))
        = Option.map swapEntry (if c = g then none
          else if c.kind = g.kind then some (DiffEntry.changed i (changedFields c g))
          else some (DiffEntry.changed i ["kind"]))
      by_cases hcg : c = g
      · rw [if_pos hcg, if_pos (hcg.symm)]
        rfl
      · rw [if_neg hcg, if_neg (fun h => hcg h.symm)]
        by_cases hk : c.kind = g.kind
        · rw [if_pos hk, if_pos hk.symm]
          rcases lookupLast_some hfg with ⟨hgmem, hgid⟩
          rcases lookupLast_some hfc with ⟨hcmem, hcid⟩
          have hnames : c.fields.map Prod.fst = g.fields.map Prod.fst :=
            hfields g hgmem c hcmem (by rw [hgid, hcid]) hk.symm
          rw [changedFields_comm hnames]
          rfl
        · rw [if_neg hk, if_neg (fun h => hk h.symm)]
          rfl

/-- Claim C6: swapping the two collections turns every addition into a
removal and vice versa, and keeps every changed entry with an identical
sorted differing-field list; at the string level the swapped diff is
the rendering of the swapped entries, in the same order. -/
theorem id_diff_swap (generated current : List Resource)
    (hfields : ∀ g ∈ generated, ∀ c ∈ current, g.id = c.id → g.kind = c.kind →
      c.fields.map Prod.fst = g.fields.map Prod.fst) :
    idDiffEntries current generated
      = (idDiffEntries generated current).map swapEntry ∧
    ∀ green red yellow : String → String,
      id_diff green red yellow current generated
        = joinWith ("\n") (((idDiffEntries generated current).map swapEntry).map
            (renderEntry green red yellow)) := by
  have hent : idDiffEntries current generated
      = (idDiffEntries generated current).map swapEntry := by
    rw [idDiffEntries, idDiffEntries, List.map_filterMap, allResourceIds_comm]
    apply List.filterMap_congr
    intro i hi
    exact idDiffEntry_swap hfields (mem_allResourceIds.1 hi)
  refine ⟨hent, ?_⟩
  intro green red yellow
  rw [id_diff, hent]

/-- Closed witness for the swap theorem: one added, one removed, one
changed resource, diffed in both directions. -/
theorem id_diff_swap_witness :
    idDiffEntries
      [⟨"Worker", [("workerId", "w1"), ("count", "5")]⟩]
      [⟨"Queue", [("name", "q")]⟩, ⟨"Worker", [("workerId", "w1"), ("count", "3")]⟩]
      = (idDiffEntries
          [⟨"Queue", [("name", "q")]⟩, ⟨"Worker", [("workerId", "w1"), ("count", "3")]⟩]
          [⟨"Worker", [("workerId", "w1"), ("count", "5")]⟩]).map swapEntry ∧
    idDiffEntries
      [⟨"Queue", [("name", "q")]⟩, ⟨"Worker", [("workerId", "w1"), ("count", "3")]⟩]
      [⟨"Worker", [("workerId", "w1"), ("count", "5")]⟩]
      = [DiffEntry.added "Queue=q", DiffEntry.changed "Worker=w1" ["count"]] := by
  refine ⟨?_, by rfl⟩
  exact (id_diff_swap
    [⟨"Queue", [("name", "q")]⟩, ⟨"Worker", [("workerId", "w1"), ("count", "3")]⟩]
    [⟨"Worker", [("workerId", "w1"), ("count", "5")]⟩]
    (by
      intro g hg c hc hid hk
      fin_cases hg <;> fin_cases hc
      · exact absurd hid (by decide)
      · rfl)).1

/-! Part: the textual-diff context label -/

/-- The while loop of contextualize computes the spec-worded backward
scan, provided the anchor line itself does not look like a label (it
is the literal resources: line in every real use). -/
theorem scanBack_eq_spec (left : List String) (rs : Nat)
    (hanchor : labelMatch (left.getD rs ("")) = none) :
    ∀ line : Nat, scanBack left rs line = specContextLabel left rs line := by
  intro line
  induction line with
  | zero =>
    simp [scanBack, specContextLabel]
  | succ line ih =>
    rw [scanBack]
    by_cases h : line + 1 > rs
    · rw [if_pos h]
      by_cases heq : line = rs
      · rw [heq, hanchor]
        rw [heq] at ih
        rw [ih]
        have h1 : rs + 1 - (rs + 1) = 0 := by omega
        have h2 : rs - (rs + 1) = 0 := by omega
        rw [specContextLabel, specContextLabel, h1, h2]
        rfl
      · have hm : line + 1 - (rs + 1) = (line - (rs + 1)) + 1 := by omega
        have hlist : (List.range (line + 1 - (rs + 1))).map (fun k => line + 1 - 1 - k)
            = line :: (List.range (line - (rs + 1))).map (fun k => line - 1 - k) := by
          rw [hm, List.range_succ_eq_map, List.map_cons, List.map_map]
          simp only [List.cons.injEq]
          constructor
          · omega
          · apply List.map_congr_left
            intro k _
            simp only [Function.comp_apply]
            omega
        rw [specContextLabel, hlist, List.findSome?_cons]
        cases hl : labelMatch (left.getD line ("")) with
        | some lbl => rfl
        | none => exact ih
    · rw [if_neg h]
      have h0 : line + 1 - (rs + 1) = 0 := by omega
      rw [specContextLabel, h0]
      rfl

/-- Claim C5, amended: every hunk-range line is annotated with the context
label computed by the backward scan from the hunk's numbered source
line toward the resources anchor, taking the captured text of the
first line with exactly two leading spaces then a non-space (the
nearest resource header line, i.e. the resource id followed by a
colon) at or above the hunk's start line, and the empty label when no
such line occurs before the anchor.  The label is not in general the
owning resource's id: when the hunk's 8-line context starts above the
owner's header line (as in any small collection) the scan never sees
that header and yields an earlier header or the empty label, and even
when it finds the owner's header the label carries a trailing colon.
-/
theorem textual_diff_context_label :
    (∀ (left : List String) (rs : Nat) (s : String) (L : Nat),
      left.getD rs ("") = "resources:" →
      parseHunkSource s = some L →
      contextualize left rs s = specContextLabel left rs L) ∧
    (∀ (left : List String) (rs : Nat) (s : String) (t : List Char),
      s.data = '@' :: t →
      colorLine left rs s = some (rstrip (s ++ " " ++ contextualize left rs s))) := by
  constructor
  · intro left rs s L hanchor hparse
    rw [contextualize, hparse]
    have hnone : labelMatch (left.getD rs ("")) = none := by
      rw [hanchor]
      rfl
    exact scanBack_eq_spec left rs hnone L
  · intro left rs s t hs
    rw [colorLine.eq_def, hs]
    rfl

/-- Closed witness for the context-label theorem: a resource whose
changed field lies more than eight lines below its header, so the
backward scan from the hunk start finds the header and the label is
the resource id followed by a colon. -/
theorem textual_diff_context_label_witness :
    ((splitLines ("managed:\n  - Worker=w1\n\nresources:\n  Worker=w1:\n    workerId: w1\n    f2: a\n    f3: a\n    f4: a\n    f5: a\n    f6: a\n    f7: a\n    f8: a\n    count: 5")).getD 3 ("")
      = "resources:") ∧
    parseHunkSource ("@@ -6,9 +6,9 @@") = some 6 ∧
    contextualize
      (splitLines ("managed:\n  - Worker=w1\n\nresources:\n  Worker=w1:\n    workerId: w1\n    f2: a\n    f3: a\n    f4: a\n    f5: a\n    f6: a\n    f7: a\n    f8: a\n    count: 5"))
      3 ("@@ -6,9 +6,9 @@")
      = specContextLabel
        (splitLines ("managed:\n  - Worker=w1\n\nresources:\n  Worker=w1:\n    workerId: w1\n    f2: a\n    f3: a\n    f4: a\n    f5: a\n    f6: a\n    f7: a\n    f8: a\n    count: 5"))
        3 6 ∧
    specContextLabel
      (splitLines ("managed:\n  - Worker=w1\n\nresources:\n  Worker=w1:\n    workerId: w1\n    f2: a\n    f3: a\n    f4: a\n    f5: a\n    f6: a\n    f7: a\n    f8: a\n    count: 5"))
      3 6 = "Worker=w1:" := by
  refine ⟨by rfl, by rfl, ?_, by rfl⟩
  exact textual_diff_context_label.1
    (splitLines ("managed:\n  - Worker=w1\n\nresources:\n  Worker=w1:\n    workerId: w1\n    f2: a\n    f3: a\n    f4: a\n    f5: a\n    f6: a\n    f7: a\n    f8: a\n    count: 5"))
    3 ("@@ -6,9 +6,9 @@") 6 (by rfl) (by rfl)

/-- Counterexample to claim C5 as stated, namely that a one-field
change yields a hunk labelled with the owning resource's id: in a small collection
the hunk starts at line 1, the backward scan stops at once, and the
label is empty, not the owner's id. -/
theorem textual_diff_small_label_empty :
    textual_diff (fun p i => p == i)
      ⟨[⟨"Worker", [("workerId", "w1"), ("count", "3")]⟩], ["Worker=w1"]⟩
      ⟨[⟨"Worker", [("workerId", "w1"), ("count", "5")]⟩], ["Worker=w1"]⟩
      = .ok ("--- current\n+++ generated\n@@ -1,7 +1,7 @@\n managed:\n   - Worker=w1\n\n resources:\n   Worker=w1:\n     workerId: w1\n-    count: 5\n+    count: 3") ∧
    contextualize
      (splitLines ("managed:\n  - Worker=w1\n\nresources:\n  Worker=w1:\n    workerId: w1\n    count: 5"))
      3 ("@@ -1,7 +1,7 @@") = "" ∧
    ("" : String) ≠ "Worker=w1" := by
  refine ⟨by rfl, by rfl, by decide⟩

end CiAdmin
